import Mathlib

/-!
Verification of the py_hypergolix repository against its natural-language
specification.

The repository ships four Python files: `hypergolix/service.py` (daemon
startup and command-line control), the test fixture
`tests/trashtest/_fixtures/logutils.py`, and two further test files.  The
persistence core described by the specification (PersistenceCore, Bookie,
Librarian, Undertaker, ...) is imported by `service.py` but its code is not
part of the available sources, so the core is modelled from the
specification text; each such definition carries a doc comment starting
with `Modelled from the spec:`.  The definitions for `service.py` and
`logutils.py` are translated directly from the Python source.

Layout: all definitions come first, then the theorems.
-/

set_option linter.unusedVariables false

namespace Hypergolix

/-! ## Definitions: embedding of hypergolix/service.py and logutils.py -/

/-- Python logging level constant `logging.DEBUG`. -/
def logDEBUG : Nat := 10

/-- Python logging level constant `logging.INFO`. -/
def logINFO : Nat := 20

/-- Python logging level constant `logging.WARNING`. -/
def logWARNING : Nat := 30

/-- Python logging level constant `logging.ERROR`. -/
def logERROR : Nat := 40

/-- Translation of `_cast_verbosity(verbosity, debug, traceur)` from
`src/hypergolix/service.py` (lines 124-138).  `verbosity` is an optional
string (`None` becomes `none`); the Python comparisons of `verbosity`
against the literal `shouty` are modelled as inequality on
`Option String`, which agrees with Python because `None` differs from
every string there. -/
def cast_verbosity (verbosity : Option String) (debug traceur : Bool) :
    Option String :=
  if traceur then
    if verbosity ≠ some "shouty" ∧ verbosity ≠ some "extreme" then
      some "debug"
    else
      verbosity
  else if verbosity = none then
    if debug then some "debug" else some "warning"
  else
    verbosity

/-- Model of the Python string method `str.lower()`: character-wise
lowercasing.  The log level names are ASCII, where `Char.toLower` agrees
with CPython case folding. -/
def pyLower (s : String) : String :=
  String.mk (s.data.map Char.toLower)

/-- Translation of the level computation in `autoconfig` from
`src/tests/trashtest/_fixtures/logutils.py` (lines 74-102): lower-case the
requested level, look it up in the `loglevel_enum` dict, and fall back to
`logging.WARNING` when the lookup raises `KeyError`.  The returned number
is the level passed to `logging.getLogger(..).setLevel`, i.e. the
root-logger level the call installs.  The function is total, which models
the fact that the Python `KeyError` is caught and never escapes. -/
def autoconfig_level (loglevel : String) : Nat :=
  if pyLower loglevel = "debug" then logDEBUG
  else if pyLower loglevel = "info" then logINFO
  else if pyLower loglevel = "warning" then logWARNING
  else if pyLower loglevel = "error" then logERROR
  else if pyLower loglevel = "shouty" then logERROR
  else if pyLower loglevel = "extreme" then logERROR
  else logWARNING

/-- Model of `HTTPServer(server_address, _HealthHandler)` from
`_serve_healthcheck`: the embedding only needs the port it was built on. -/
structure HTTPServer where
  port : Nat
deriving DecidableEq

/-- Model of a `threading.Thread` as constructed in `_serve_healthcheck`.
The `target` field holds the VALUE Python passes for `target=`; in the
source that value is the result of the call `server.serve_forever()`, not
the bound method itself. -/
structure PyThread where
  daemon : Bool
  target : Option Unit
  name : String
  started : Bool
deriving DecidableEq

/-- Model of `HTTPServer.serve_forever()`: a loop that handles one request
per unit of fuel and never completes on its own (it only returns after an
external `shutdown()`, which nothing inside `_serve_healthcheck` can issue
because the call happens before the function returns).  `fuel` bounds the
number of observed evaluation steps; for every bound the call is still
running, i.e. yields no result. -/
def serve_forever : Nat → Option Unit
  | 0 => none
  | n + 1 => serve_forever n

/-- Translation of `_serve_healthcheck(port)` from
`src/hypergolix/service.py` (lines 108-121).  Python evaluates every
argument expression before calling `Thread(...)`, so the expression
`target = server.serve_forever()` runs the serve loop in the calling
thread; only if that call ever produced a value would the `Thread` object
be constructed (with that value, not a callable, as its target) and the
pair be returned.  `fuel` bounds the evaluation steps granted to the serve
loop. -/
def serve_healthcheck (port : Nat) (fuel : Nat) :
    Option (HTTPServer × PyThread) :=
  let server : HTTPServer := ⟨port⟩
  match serve_forever fuel with
  | none => none
  | some r => some (server, ⟨true, some r, "hlthchk", false⟩)

/-! ## Definitions: the persistence core, modelled from the specification

The pipeline code itself (`hypergolix/persistence.py` and friends) is not
among the available sources; only its callers in `service.py` are.  The
definitions below therefore follow the specification text (sections 3, 4,
6 and 7 of spec.md).
-/

/-- Modelled from the spec: the closed, tagged variant of object kinds of
section 3 (the ephemeral Request kind is outside the reference-counted
graph and takes no part in any claim, so it is omitted).  Identifiers are
natural numbers; payloads are opaque and modelled as a number.  A
DynamicBinding is represented by its frames: each frame names its owning
author, the lineage it belongs to, its strictly-increasing counter, the
new target, and the optional retained-history list of prior targets. -/
inductive GolixObj where
  | container (author : Nat) (payload : Nat)
  | staticBinding (author : Nat) (target : Nat)
  | dynamicFrame (author : Nat) (lineage : Nat) (counter : Nat)
      (target : Nat) (history : List Nat)
  | debinding (author : Nat) (target : Nat)
deriving DecidableEq

/-- Modelled from the spec: an injective encoding of a list of naturals,
used by the content hash below. -/
def encodeList : List Nat → Nat
  | [] => 0
  | x :: xs => Nat.pair x (encodeList xs) + 1

/-- Modelled from the spec: the content-derived Identifier of section 3.
The spec assumes an opaque hash with no collisions in practice (equality
of identifiers is the equality relation of the system), so the hash is
modelled as an injective pairing of the canonical fields. -/
def identOf : GolixObj → Nat
  | .container a p => Nat.pair 0 (Nat.pair a p)
  | .staticBinding a t => Nat.pair 1 (Nat.pair a t)
  | .dynamicFrame a l c t h =>
      Nat.pair 2 (Nat.pair a (Nat.pair l (Nat.pair c (Nat.pair t (encodeList h)))))
  | .debinding a t => Nat.pair 3 (Nat.pair a t)

/-- Modelled from the spec: the ReferenceIndex of section 4.4, a concrete
mapping from identifier to the set of dependent identifiers, kept as a
list of keep-alive edges `(target, dependent)`. -/
abbrev RefIndex := List (Nat × Nat)

/-- Modelled from the spec: the Store of sections 3 and 6, a durable
key-to-object map keyed by content identifier, kept as an association
list. -/
abbrev Store := List (Nat × GolixObj)

/-- Modelled from the spec: edge addition of section 4.4; adding an edge
that is already present is a no-op (idempotent). -/
def addEdge (idx : RefIndex) (t d : Nat) : RefIndex :=
  if (t, d) ∈ idx then idx else (t, d) :: idx

/-- Modelled from the spec: edge removal of section 4.4; removing an
absent edge is a no-op, never an error. -/
def removeEdge (idx : RefIndex) (t d : Nat) : RefIndex :=
  idx.filter (fun e => e ≠ (t, d))

/-- Modelled from the spec: the "does this identifier have any inbound
edge" query of section 4.4. -/
def hasInbound (idx : RefIndex) (i : Nat) : Bool :=
  idx.any (fun e => e.1 == i)

/-- Modelled from the spec: the targets of all edges originating from a
given identifier, used by the Collector to cascade (section 4.6). -/
def outgoingTargets (idx : RefIndex) (i : Nat) : List Nat :=
  (idx.filter (fun e => e.2 == i)).map Prod.fst

/-- Modelled from the spec: "remove all edges originating from a given
identifier" of section 4.4, used when that identifier is collected. -/
def removeAllFrom (idx : RefIndex) (i : Nat) : RefIndex :=
  idx.filter (fun e => e.2 ≠ i)

/-- Store membership by identifier. -/
def storeHas (s : Store) (i : Nat) : Bool :=
  s.any (fun e => e.1 == i)

/-- Modelled from the spec: `get(identifier) -> object|NotFound` of
section 6. -/
def storeGet (s : Store) (i : Nat) : Option GolixObj :=
  (s.find? (fun e => e.1 == i)).map Prod.snd

/-- Modelled from the spec: `delete(identifier)` of section 6, used only
inside the Collector. -/
def storeRemove (s : Store) (i : Nat) : Store :=
  s.filter (fun e => e.1 ≠ i)

/-- Modelled from the spec: the unbounded fixed-point semantics of the
Collector sweep of section 4.6.  The head identifier of the worklist is
examined: if it still has an inbound keep-alive edge, or is no longer
stored, it is skipped (re-running collection on an already-missing object
is a no-op); otherwise its Store entry is removed, all edges it owns as a
source are removed, and the targets of those edges are re-queued for the
emptiness re-check, until no work remains. -/
def collectSweep (s : Store) (idx : RefIndex) (wl : List Nat) :
    Store × RefIndex :=
  match wl with
  | [] => (s, idx)
  | i :: rest =>
    if h : hasInbound idx i || !storeHas s i then
      collectSweep s idx rest
    else
      collectSweep (storeRemove s i) (removeAllFrom idx i)
        (outgoingTargets idx i ++ rest)
termination_by (s.length, wl.length)
decreasing_by
  · apply Prod.Lex.right
    simp
  · apply Prod.Lex.left
    simp only [Bool.or_eq_true, Bool.not_eq_true', not_or] at h
    obtain ⟨-, h2⟩ := h
    simp only [Bool.not_eq_false] at h2
    rw [storeHas, List.any_eq_true] at h2
    obtain ⟨e, he, hei⟩ := h2
    rw [storeRemove]
    apply List.length_filter_lt_length_iff_exists.mpr
    refine ⟨e, he, ?_⟩
    simp only [beq_iff_eq] at hei
    simp [hei]

/-- Modelled from the spec: the Collector loop as the pipeline runs it —
the explicit-worklist iteration of section 9, with each iteration paying
one unit of fuel; `none` means the fuel ran out before the sweep reached
its fixed point. -/
def collectFuel : Nat → Store → RefIndex → List Nat →
    Option (Store × RefIndex)
  | _, s, idx, [] => some (s, idx)
  | 0, _, _, _ :: _ => none
  | n + 1, s, idx, i :: rest =>
    if hasInbound idx i || !storeHas s i then collectFuel n s idx rest
    else
      collectFuel n (storeRemove s i) (removeAllFrom idx i)
        (outgoingTargets idx i ++ rest)

/-- Modelled from the spec: the Collector invocation of section 4.6, the
bounded worklist loop started with fuel
`wl.length + s.length * (idx.length + 1)` — enough iterations to pay for
every initial worklist entry and, per removable object, for the removal
and every edge target it can re-queue.  (That this bound always suffices,
so that the loop computes the `collectSweep` fixed point, is proved in
`collectFuel_sufficient`.)  The fallback value is never reached. -/
def collect (s : Store) (idx : RefIndex) (wl : List Nat) :
    Store × RefIndex :=
  (collectFuel (wl.length + s.length * (idx.length + 1)) s idx wl).getD
    (s, idx)

/-- Modelled from the spec: the rejection taxonomy of section 7 restricted
to the kinds the pipeline itself produces on the modelled paths. -/
inductive ErrKind where
  | structural
  | signature
  | consistency
  | authorization
deriving DecidableEq

/-- Modelled from the spec: the exactly-one terminal outcome per
submission of sections 4.8 and 6. -/
inductive Outcome where
  | accepted (i : Nat)
  | alreadyExists (i : Nat)
  | rejected (k : ErrKind)
deriving DecidableEq

/-- Modelled from the spec: the shared state owned by the atomic unit of
section 4.4, a Store plus a ReferenceIndex. -/
structure PState where
  store : Store
  refIndex : RefIndex
deriving DecidableEq

/-- The empty state a fresh pipeline starts from. -/
def initialState : PState := ⟨[], []⟩

/-- The declared author identity of an object (section 3). -/
def authorOf : GolixObj → Nat
  | .container a _ => a
  | .staticBinding a _ => a
  | .dynamicFrame a _ _ _ _ => a
  | .debinding a _ => a

/-- Modelled from the spec: the kinds a Debinding may retract (a prior
StaticBinding or DynamicBinding frame, section 3). -/
def debindableKind : GolixObj → Bool
  | .staticBinding _ _ => true
  | .dynamicFrame _ _ _ _ _ => true
  | _ => false

/-- Whether an object is a frame of the given lineage. -/
def frameOfLineage (lin : Nat) : GolixObj → Bool
  | .dynamicFrame _ l _ _ _ => l == lin
  | _ => false

/-- The stored entries that are frames of the given lineage. -/
def lineageEntries (s : Store) (lin : Nat) : Store :=
  s.filter (fun e => frameOfLineage lin e.2)

/-- The frame counter of an object (0 for non-frames, which never ask). -/
def counterOf : GolixObj → Nat
  | .dynamicFrame _ _ c _ _ => c
  | _ => 0

/-- Modelled from the spec: the counter of the currently-stored live frame
of a lineage, that is the highest counter among its stored frames, or
`none` when the lineage has no stored frame yet (section 4.2). -/
def liveCounter (s : Store) (lin : Nat) : Option Nat :=
  match lineageEntries s lin with
  | [] => none
  | e :: es => some (((e :: es).map (fun x => counterOf x.2)).foldr max 0)

/-- Modelled from the spec: the owning author of a lineage, recorded at
the first frame (section 4.3); every stored frame of a lineage carries the
owning author, so the first stored frame supplies it. -/
def lineageOwner (s : Store) (lin : Nat) : Option Nat :=
  (lineageEntries s lin).head?.map (fun e => authorOf e.2)

/-- Modelled from the spec: the ConsistencyChecker of section 4.2.  Rules:
a binding must not reference itself (neither as target nor in retained
history); every referenced target (a binding target, each retained-history
entry, a debound object) must already exist in the Store — the dependency
graph never references forward into not-yet-existing objects (section
4.6), and a Replicator that could fetch a missing dependency is out of
scope, so a missing dependency rejects with `ConsistencyError` as in the
section 8 scenario; a Debinding must name an object of a compatible kind;
a frame counter must strictly exceed the counter of the currently-stored
live frame of its lineage, unless it is the first frame of the lineage.
The `AlreadyExists` detection for a resubmitted identical object happens
before this check, in `submit`. -/
def checkConsistency (st : PState) (o : GolixObj) (i : Nat) :
    Option ErrKind :=
  match o with
  | .container _ _ => none
  | .staticBinding _ t =>
    if t == i then some .consistency
    else if !storeHas st.store t then some .consistency
    else none
  | .dynamicFrame _ lin c t h =>
    if t == i || h.contains i then some .consistency
    else if !storeHas st.store t then some .consistency
    else if !h.all (fun x => storeHas st.store x) then some .consistency
    else
      match liveCounter st.store lin with
      | none => none
      | some m => if m < c then none else some .consistency
  | .debinding _ t =>
    match storeGet st.store t with
    | none => some .consistency
    | some b => if debindableKind b then none else some .consistency

/-- Modelled from the spec: the AuthorizationGuard of section 4.3.  A
Debinding author must equal the author of the object it retracts; a frame
author must equal the owning author of its lineage; a StaticBinding author
is unconstrained. -/
def checkAuthorization (st : PState) (o : GolixObj) : Option ErrKind :=
  match o with
  | .debinding a t =>
    match storeGet st.store t with
    | none => some .authorization
    | some b => if authorOf b == a then none else some .authorization
  | .dynamicFrame a lin _ _ _ =>
    match lineageOwner st.store lin with
    | none => none
    | some owner => if owner == a then none else some .authorization
  | _ => none

/-- Add one keep-alive edge per listed target, all owned by dependent
`d`. -/
def addEdges (idx : RefIndex) (ts : List Nat) (d : Nat) : RefIndex :=
  ts.foldl (fun acc t => addEdge acc t d) idx

/-- Remove all edges originating from each listed identifier. -/
def removeAllFromMany (idx : RefIndex) (ids : List Nat) : RefIndex :=
  ids.foldl removeAllFrom idx

/-- Modelled from the spec: the atomic commit of section 4.4 together with
the synchronous Collector trigger of section 4.6, for an already
validated, consistent and authorized object.
A Container is stored and carries no edge.  A StaticBinding is stored and
adds the keep-alive edge target-from-binding.  A DynamicBinding frame is
stored, contributes its keep-alive edges (to its target and to each
retained-history entry), and supersedes every previously stored frame of
its lineage: those frames stop contributing edges and become eligible for
collection, so the Collector re-checks them and the targets they kept
alive.  A Debinding is stored, the edges contributed by the retracted
object are removed, and the Collector re-checks the retracted object and
the targets it kept alive (which removes, for example, a debound binding
and its now-orphaned target, as in the section 8 scenario). -/
def commitObj (st : PState) (o : GolixObj) (i : Nat) : PState :=
  match o with
  | .container _ _ => ⟨(i, o) :: st.store, st.refIndex⟩
  | .staticBinding _ t => ⟨(i, o) :: st.store, addEdge st.refIndex t i⟩
  | .dynamicFrame _ lin _ t h =>
    let sup := (lineageEntries st.store lin).map Prod.fst
    let idx1 := addEdges st.refIndex (t :: h) i
    let oldOuts := (sup.map (fun j => outgoingTargets idx1 j)).flatten
    let idx2 := removeAllFromMany idx1 sup
    let swept := collect ((i, o) :: st.store) idx2 (sup ++ oldOuts)
    ⟨swept.1, swept.2⟩
  | .debinding _ t =>
    let outs := outgoingTargets st.refIndex t
    let idx1 := removeAllFrom st.refIndex t
    let swept := collect ((i, o) :: st.store) idx1 (t :: outs)
    ⟨swept.1, swept.2⟩

/-- Modelled from the spec: a raw candidate submission.  The decoded
logical object stands for the raw bytes (the canonical encoding is a
stable bijection, section 1); `structOk` abstracts the structural checks
of section 4.1 (decoding succeeds, known kind tag, claimed identifier
matches), and `sigOk` abstracts the opaque cryptographic signature
verification. -/
structure RawCandidate where
  obj : GolixObj
  structOk : Bool
  sigOk : Bool
deriving DecidableEq

/-- Modelled from the spec: `submit(rawBytes) -> Outcome` of section 6,
sequencing Validator, ConsistencyChecker, AuthorizationGuard, and the
atomic commit-plus-collection, as in section 4.8.  Resubmission of an
already-stored identical object is reported `AlreadyExists`
(success-shaped) before the remaining checks, as in section 4.2. -/
def submit (st : PState) (c : RawCandidate) : PState × Outcome :=
  if c.structOk = false then (st, .rejected .structural)
  else if c.sigOk = false then (st, .rejected .signature)
  else if storeHas st.store (identOf c.obj) then
    (st, .alreadyExists (identOf c.obj))
  else
    match checkConsistency st c.obj (identOf c.obj) with
    | some k => (st, .rejected k)
    | none =>
      match checkAuthorization st c.obj with
      | some k => (st, .rejected k)
      | none =>
        (commitObj st c.obj (identOf c.obj), .accepted (identOf c.obj))

/-- The states reachable by the pipeline from the empty state, one
submission at a time. -/
inductive Reachable : PState → Prop where
  | init : Reachable initialState
  | step (st : PState) (c : RawCandidate) :
      Reachable st → Reachable (submit st c).1

/-- Pairing of a Store and a ReferenceIndex in which every edge endpoint
(kept-alive target and dependent owner alike) refers to a stored object:
no dangling edges, and in particular every identifier with an inbound
keep-alive edge is present in the Store. -/
def edgesClosed (s : Store) (idx : RefIndex) : Prop :=
  ∀ e ∈ idx, storeHas s e.1 = true ∧ storeHas s e.2 = true

/-- `edgesClosed` for a packaged pipeline state. -/
def edgeClosed (st : PState) : Prop :=
  edgesClosed st.store st.refIndex

/-- No two distinct stored frames of one lineage share a counter value. -/
def framesCountersDistinct (s : Store) : Prop :=
  ∀ p ∈ s, ∀ q ∈ s,
    ∀ a1 l1 c1 t1 h1 a2 l2 c2 t2 h2,
      p.2 = GolixObj.dynamicFrame a1 l1 c1 t1 h1 →
      q.2 = GolixObj.dynamicFrame a2 l2 c2 t2 h2 →
      l1 = l2 → p.1 ≠ q.1 → c1 ≠ c2

/-! ## Definitions: concrete scenario objects

The scenario of section 8 of the spec: a Container by author 1, a
StaticBinding on it by author 1, frames of a DynamicBinding lineage, and
debindings by the right and by a wrong author.  These serve as concrete
inputs for counterexamples and witnesses.
-/

/-- The scenario Container (author 1, opaque payload 2). -/
def contA : RawCandidate := ⟨.container 1 2, true, true⟩

/-- Identifier of the scenario Container. -/
def idContA : Nat := identOf (.container 1 2)

/-- The scenario StaticBinding: author 1 vouches for the Container. -/
def bindB : GolixObj := .staticBinding 1 idContA

/-- The scenario StaticBinding as a submission. -/
def candB : RawCandidate := ⟨bindB, true, true⟩

/-- Identifier of the scenario StaticBinding. -/
def idBindB : Nat := identOf bindB

/-- State after accepting the Container. -/
def stAfterA : PState := (submit initialState contA).1

/-- State after accepting the Container and then the StaticBinding. -/
def stAfterAB : PState := (submit stAfterA candB).1

/-- A Debinding of the scenario StaticBinding by the wrong author 5. -/
def debindWrongAuthor : RawCandidate := ⟨.debinding 5 idBindB, true, true⟩

/-- First frame of DynamicBinding lineage 9: author 1, counter 5,
targeting the scenario Container. -/
def frameF5 : GolixObj := .dynamicFrame 1 9 5 idContA []

/-- The first frame as a submission. -/
def candF5 : RawCandidate := ⟨frameF5, true, true⟩

/-- State after accepting the Container and then frame counter 5 of
lineage 9. -/
def stLineage : PState := (submit stAfterA candF5).1

/-! ## Theorems: service.py and logutils.py (claims C8, C9, C10) -/

theorem serve_forever_eq_none (n : Nat) : serve_forever n = none := by
  induction n with
  | zero => rfl
  | succ n ih => simpa [serve_forever] using ih

/-- C8: calling `_serve_healthcheck` never returns, for any port and any
number of evaluation steps: the `target = server.serve_forever()` argument
expression blocks the calling thread forever, so the advertised
`(server, worker)` pair is never produced.  This contradicts the claim
(and the docstring of the function), which promise a returned pair with an
unstarted daemon thread whose target is the serve loop. -/
theorem serve_healthcheck_never_returns (port fuel : Nat) :
    serve_healthcheck port fuel = none := by
  simp [serve_healthcheck, serve_forever_eq_none]

/-- C9: case analysis of `_cast_verbosity` exactly as the claim states it:
with `traceur` set and verbosity neither `shouty` nor `extreme` the result
is `debug`; with `traceur` unset and no verbosity the result is `debug`
when debugging and `warning` otherwise; in every other case the input
verbosity is returned unchanged. -/
theorem cast_verbosity_spec (v : Option String) (d t : Bool) :
    (t = true → v ≠ some "shouty" → v ≠ some "extreme" →
      cast_verbosity v d t = some "debug") ∧
    (t = false → v = none →
      cast_verbosity v d t = (if d then some "debug" else some "warning")) ∧
    (t = true → (v = some "shouty" ∨ v = some "extreme") →
      cast_verbosity v d t = v) ∧
    (t = false → v ≠ none → cast_verbosity v d t = v) := by
  refine ⟨?_, ?_, ?_, ?_⟩
  · intro ht h1 h2
    subst ht
    simp [cast_verbosity, h1, h2]
  · intro ht hv
    subst ht hv
    simp [cast_verbosity]
  · intro ht hv
    subst ht
    rcases hv with hv | hv <;> subst hv <;> simp [cast_verbosity]
  · intro ht hv
    subst ht
    simp [cast_verbosity, hv]

/-- Witness for C9 at a concrete input: `traceur` unset and an explicit
verbosity are passed through unchanged. -/
theorem cast_verbosity_spec_witness :
    cast_verbosity (some "info") false false = some "info" :=
  (cast_verbosity_spec (some "info") false false).2.2.2 rfl (by simp)

/-- C10: the root-logger level installed by
`autoconfig(tofile=False, loglevel=s)` as a function of `s.lower()`:
`DEBUG`, `INFO`, `WARNING`, `ERROR` for the four standard names, `ERROR`
for `shouty` and `extreme`, and `WARNING` for every other string (the
`KeyError` fallback); the computation is total, so no exception
escapes. -/
theorem autoconfig_level_spec (s : String) :
    (pyLower s = "debug" → autoconfig_level s = logDEBUG) ∧
    (pyLower s = "info" → autoconfig_level s = logINFO) ∧
    (pyLower s = "warning" → autoconfig_level s = logWARNING) ∧
    (pyLower s = "error" → autoconfig_level s = logERROR) ∧
    (pyLower s = "shouty" → autoconfig_level s = logERROR) ∧
    (pyLower s = "extreme" → autoconfig_level s = logERROR) ∧
    (pyLower s ∉ ["debug", "info", "warning", "error", "shouty", "extreme"] →
      autoconfig_level s = logWARNING) := by
  refine ⟨?_, ?_, ?_, ?_, ?_, ?_, ?_⟩ <;> intro h
  · simp [autoconfig_level, h]
  · simp [autoconfig_level, h]
  · simp [autoconfig_level, h]
  · simp [autoconfig_level, h]
  · simp [autoconfig_level, h]
  · simp [autoconfig_level, h]
  · simp only [List.mem_cons, List.not_mem_nil, or_false, not_or] at h
    obtain ⟨h1, h2, h3, h4, h5, h6⟩ := h
    simp [autoconfig_level, h1, h2, h3, h4, h5, h6]

/-- Witness for C10 at a concrete input: an unknown level name falls back
to `WARNING`. -/
theorem autoconfig_level_spec_witness :
    autoconfig_level "chatty" = logWARNING :=
  (autoconfig_level_spec "chatty").2.2.2.2.2.2 (by decide)

/-! ## Theorems: helper lemmas about the ReferenceIndex and the Store -/

theorem storeHas_iff {s : Store} {i : Nat} :
    storeHas s i = true ↔ ∃ e ∈ s, e.1 = i := by
  simp [storeHas, List.any_eq_true]

theorem storeHas_cons_of {s : Store} {i : Nat} (x : Nat × GolixObj)
    (h : storeHas s i = true) : storeHas (x :: s) i = true := by
  rw [storeHas_iff] at h ⊢
  obtain ⟨e, he, hei⟩ := h
  exact ⟨e, List.mem_cons_of_mem _ he, hei⟩

theorem storeHas_cons_self {s : Store} {i : Nat} (o : GolixObj) :
    storeHas ((i, o) :: s) i = true := by
  rw [storeHas_iff]
  exact ⟨(i, o), List.mem_cons_self _ _, rfl⟩

theorem storeRemove_mem {s : Store} {i : Nat} {e : Nat × GolixObj} :
    e ∈ storeRemove s i ↔ e ∈ s ∧ e.1 ≠ i := by
  simp [storeRemove, List.mem_filter]

theorem storeHas_storeRemove {s : Store} {i j : Nat}
    (hs : storeHas s j = true) (hne : j ≠ i) :
    storeHas (storeRemove s i) j = true := by
  rw [storeHas_iff] at hs ⊢
  obtain ⟨e, he, hei⟩ := hs
  exact ⟨e, storeRemove_mem.mpr ⟨he, by rw [hei]; exact hne⟩, hei⟩

theorem storeGet_storeHas {s : Store} {i : Nat} {b : GolixObj}
    (h : storeGet s i = some b) : storeHas s i = true := by
  rw [storeGet] at h
  rcases hf : s.find? (fun e => e.1 == i) with _ | e
  · rw [hf] at h
    simp at h
  · have hp := List.find?_some hf
    have hm := List.mem_of_find?_eq_some hf
    rw [storeHas_iff]
    exact ⟨e, hm, by simpa using hp⟩

theorem hasInbound_iff {idx : RefIndex} {i : Nat} :
    hasInbound idx i = true ↔ ∃ e ∈ idx, e.1 = i := by
  simp [hasInbound, List.any_eq_true]

theorem hasInbound_eq_false_iff {idx : RefIndex} {i : Nat} :
    hasInbound idx i = false ↔ ∀ e ∈ idx, e.1 ≠ i := by
  simp [hasInbound, List.any_eq_false]

theorem addEdge_mem {idx : RefIndex} {t d : Nat} {e : Nat × Nat}
    (h : e ∈ addEdge idx t d) : e ∈ idx ∨ e = (t, d) := by
  rw [addEdge] at h
  split at h
  · exact Or.inl h
  · rcases List.mem_cons.mp h with h | h
    · exact Or.inr h
    · exact Or.inl h

theorem addEdge_mem_self {idx : RefIndex} {t d : Nat} :
    (t, d) ∈ addEdge idx t d := by
  rw [addEdge]
  split
  · assumption
  · exact List.mem_cons_self _ _

theorem addEdge_mem_of {idx : RefIndex} {t d : Nat} {e : Nat × Nat}
    (h : e ∈ idx) : e ∈ addEdge idx t d := by
  rw [addEdge]
  split
  · exact h
  · exact List.mem_cons_of_mem _ h

theorem addEdges_mem {ts : List Nat} {idx : RefIndex} {d : Nat}
    {e : Nat × Nat} (h : e ∈ addEdges idx ts d) :
    e ∈ idx ∨ (e.1 ∈ ts ∧ e.2 = d) := by
  induction ts generalizing idx with
  | nil => exact Or.inl h
  | cons t ts ih =>
    rw [addEdges] at h
    rcases ih (by simpa [addEdges] using h) with h1 | h1
    · rcases addEdge_mem h1 with h2 | h2
      · exact Or.inl h2
      · subst h2
        exact Or.inr ⟨List.mem_cons_self _ _, rfl⟩
    · exact Or.inr ⟨List.mem_cons_of_mem _ h1.1, h1.2⟩

theorem removeAllFrom_mem {idx : RefIndex} {i : Nat} {e : Nat × Nat}
    (h : e ∈ removeAllFrom idx i) : e ∈ idx ∧ e.2 ≠ i := by
  simpa [removeAllFrom, List.mem_filter] using h

theorem removeAllFromMany_mem {ids : List Nat} {idx : RefIndex}
    {e : Nat × Nat} (h : e ∈ removeAllFromMany idx ids) : e ∈ idx := by
  induction ids generalizing idx with
  | nil => exact h
  | cons j ids ih =>
    rw [removeAllFromMany] at h
    exact (removeAllFrom_mem (ih (by simpa [removeAllFromMany] using h))).1

theorem outgoingTargets_mem {idx : RefIndex} {i x : Nat}
    (h : x ∈ outgoingTargets idx i) : ∃ e ∈ idx, e.1 = x ∧ e.2 = i := by
  rw [outgoingTargets] at h
  obtain ⟨e, he, hex⟩ := List.mem_map.mp h
  obtain ⟨he1, he2⟩ := List.mem_filter.mp he
  exact ⟨e, he1, hex, by simpa using he2⟩

/-! ## Theorems: helper lemmas about the Collector sweep -/

theorem collect_cond_false {s : Store} {idx : RefIndex} {i : Nat}
    (h : ¬(hasInbound idx i || !storeHas s i) = true) :
    hasInbound idx i = false ∧ storeHas s i = true := by
  constructor
  · cases hh : hasInbound idx i
    · rfl
    · exact absurd (by simp [hh]) h
  · cases hh : storeHas s i
    · exact absurd (by simp [hh]) h
    · rfl

theorem collectFuel_nil (fuel : Nat) (s : Store) (idx : RefIndex) :
    collectFuel fuel s idx [] = some (s, idx) := by
  cases fuel <;> rfl

theorem collectFuel_store_mem :
    ∀ {fuel : Nat} {s : Store} {idx : RefIndex} {wl : List Nat}
      {r : Store × RefIndex}, collectFuel fuel s idx wl = some r →
      ∀ {e : Nat × GolixObj}, e ∈ r.1 → e ∈ s := by
  intro fuel s idx wl
  induction fuel, s, idx, wl using collectFuel.induct with
  | case1 t s idx =>
    intro r h e he
    rw [collectFuel_nil] at h
    rw [← Option.some.inj h] at he
    exact he
  | case2 s idx head tail =>
    intro r h e he
    exact Option.noConfusion h
  | case3 n s idx i rest hcond ih =>
    intro r h e he
    simp only [collectFuel, hcond, if_true] at h
    exact ih h he
  | case4 n s idx i rest hcond ih =>
    intro r h e he
    simp only [collectFuel] at h
    rw [if_neg hcond] at h
    exact (storeRemove_mem.mp (ih h he)).1

theorem collectFuel_idx_mem :
    ∀ {fuel : Nat} {s : Store} {idx : RefIndex} {wl : List Nat}
      {r : Store × RefIndex}, collectFuel fuel s idx wl = some r →
      ∀ {e : Nat × Nat}, e ∈ r.2 → e ∈ idx := by
  intro fuel s idx wl
  induction fuel, s, idx, wl using collectFuel.induct with
  | case1 t s idx =>
    intro r h e he
    rw [collectFuel_nil] at h
    rw [← Option.some.inj h] at he
    exact he
  | case2 s idx head tail =>
    intro r h e he
    exact Option.noConfusion h
  | case3 n s idx i rest hcond ih =>
    intro r h e he
    simp only [collectFuel, hcond, if_true] at h
    exact ih h he
  | case4 n s idx i rest hcond ih =>
    intro r h e he
    simp only [collectFuel] at h
    rw [if_neg hcond] at h
    exact (removeAllFrom_mem (ih h he)).1

theorem collectFuel_edgesClosed :
    ∀ {fuel : Nat} {s : Store} {idx : RefIndex} {wl : List Nat}
      {r : Store × RefIndex}, collectFuel fuel s idx wl = some r →
      edgesClosed s idx → edgesClosed r.1 r.2 := by
  intro fuel s idx wl
  induction fuel, s, idx, wl using collectFuel.induct with
  | case1 t s idx =>
    intro r h hcl
    rw [collectFuel_nil] at h
    rw [← Option.some.inj h]
    exact hcl
  | case2 s idx head tail =>
    intro r h hcl
    exact Option.noConfusion h
  | case3 n s idx i rest hcond ih =>
    intro r h hcl
    simp only [collectFuel, hcond, if_true] at h
    exact ih h hcl
  | case4 n s idx i rest hcond ih =>
    intro r h hcl
    simp only [collectFuel] at h
    rw [if_neg hcond] at h
    apply ih h
    obtain ⟨hin, hst⟩ := collect_cond_false hcond
    rw [hasInbound_eq_false_iff] at hin
    intro e he
    obtain ⟨he1, he2⟩ := removeAllFrom_mem he
    obtain ⟨ht, hd⟩ := hcl e he1
    exact ⟨storeHas_storeRemove ht (hin e he1),
      storeHas_storeRemove hd he2⟩

theorem collectFuel_keeps :
    ∀ {fuel : Nat} {s : Store} {idx : RefIndex} {wl : List Nat}
      {r : Store × RefIndex}, collectFuel fuel s idx wl = some r →
      ∀ {j : Nat}, storeHas s j = true → j ∉ wl →
      (∀ e ∈ idx, e.1 ≠ j) → storeHas r.1 j = true := by
  intro fuel s idx wl
  induction fuel, s, idx, wl using collectFuel.induct with
  | case1 t s idx =>
    intro r h j hs hwl hidx
    rw [collectFuel_nil] at h
    rw [← Option.some.inj h]
    exact hs
  | case2 s idx head tail =>
    intro r h j hs hwl hidx
    exact Option.noConfusion h
  | case3 n s idx i rest hcond ih =>
    intro r h j hs hwl hidx
    simp only [collectFuel, hcond, if_true] at h
    exact ih h hs (fun hmem => hwl (List.mem_cons_of_mem _ hmem)) hidx
  | case4 n s idx i rest hcond ih =>
    intro r h j hs hwl hidx
    simp only [collectFuel] at h
    rw [if_neg hcond] at h
    have hji : j ≠ i := fun he => hwl (he ▸ List.mem_cons_self _ _)
    apply ih h (storeHas_storeRemove hs hji)
    · intro hmem
      rcases List.mem_append.mp hmem with hmem | hmem
      · obtain ⟨e, he, he1, -⟩ := outgoingTargets_mem hmem
        exact hidx e he he1
      · exact hwl (List.mem_cons_of_mem _ hmem)
    · intro e he
      exact hidx e (removeAllFrom_mem he).1

theorem collectFuel_keysNodup :
    ∀ {fuel : Nat} {s : Store} {idx : RefIndex} {wl : List Nat}
      {r : Store × RefIndex}, collectFuel fuel s idx wl = some r →
      (s.map Prod.fst).Nodup → (r.1.map Prod.fst).Nodup := by
  intro fuel s idx wl
  induction fuel, s, idx, wl using collectFuel.induct with
  | case1 t s idx =>
    intro r h hnd
    rw [collectFuel_nil] at h
    rw [← Option.some.inj h]
    exact hnd
  | case2 s idx head tail =>
    intro r h hnd
    exact Option.noConfusion h
  | case3 n s idx i rest hcond ih =>
    intro r h hnd
    simp only [collectFuel, hcond, if_true] at h
    exact ih h hnd
  | case4 n s idx i rest hcond ih =>
    intro r h hnd
    simp only [collectFuel] at h
    rw [if_neg hcond] at h
    apply ih h
    exact List.Nodup.sublist
      (List.Sublist.map Prod.fst (List.filter_sublist s)) hnd

theorem collect_store_mem {s : Store} {idx : RefIndex} {wl : List Nat}
    {e : Nat × GolixObj} (h : e ∈ (collect s idx wl).1) : e ∈ s := by
  rw [collect] at h
  rcases hf : collectFuel (wl.length + s.length * (idx.length + 1))
      s idx wl with _ | r
  · rw [hf, Option.getD_none] at h
    exact h
  · rw [hf, Option.getD_some] at h
    exact collectFuel_store_mem hf h

theorem collect_idx_mem {s : Store} {idx : RefIndex} {wl : List Nat}
    {e : Nat × Nat} (h : e ∈ (collect s idx wl).2) : e ∈ idx := by
  rw [collect] at h
  rcases hf : collectFuel (wl.length + s.length * (idx.length + 1))
      s idx wl with _ | r
  · rw [hf, Option.getD_none] at h
    exact h
  · rw [hf, Option.getD_some] at h
    exact collectFuel_idx_mem hf h

theorem collect_edgesClosed {s : Store} {idx : RefIndex} {wl : List Nat}
    (h : edgesClosed s idx) :
    edgesClosed (collect s idx wl).1 (collect s idx wl).2 := by
  rw [collect]
  rcases hf : collectFuel (wl.length + s.length * (idx.length + 1))
      s idx wl with _ | r
  · rw [Option.getD_none]
    exact h
  · rw [Option.getD_some]
    exact collectFuel_edgesClosed hf h

theorem collect_keeps {s : Store} {idx : RefIndex} {wl : List Nat}
    {j : Nat} (hs : storeHas s j = true) (hwl : j ∉ wl)
    (hidx : ∀ e ∈ idx, e.1 ≠ j) :
    storeHas (collect s idx wl).1 j = true := by
  rw [collect]
  rcases hf : collectFuel (wl.length + s.length * (idx.length + 1))
      s idx wl with _ | r
  · rw [Option.getD_none]
    exact hs
  · rw [Option.getD_some]
    exact collectFuel_keeps hf hs hwl hidx

theorem collect_keysNodup {s : Store} {idx : RefIndex} {wl : List Nat}
    (h : (s.map Prod.fst).Nodup) :
    ((collect s idx wl).1.map Prod.fst).Nodup := by
  rw [collect]
  rcases hf : collectFuel (wl.length + s.length * (idx.length + 1))
      s idx wl with _ | r
  · rw [Option.getD_none]
    exact h
  · rw [Option.getD_some]
    exact collectFuel_keysNodup hf h

theorem collectFuel_sufficient {fuel : Nat} :
    ∀ {s : Store} {idx : RefIndex} {wl : List Nat},
      wl.length + s.length * (idx.length + 1) ≤ fuel →
      collectFuel fuel s idx wl = some (collectSweep s idx wl) := by
  induction fuel with
  | zero =>
    intro s idx wl hb
    have hwl : wl = [] := by
      cases wl with
      | nil => rfl
      | cons i rest => simp at hb
    subst hwl
    rw [collectFuel_nil, collectSweep]
  | succ n ih =>
    intro s idx wl hb
    cases wl with
    | nil => rw [collectFuel_nil, collectSweep]
    | cons i rest =>
      rw [collectSweep]
      by_cases hcond : (hasInbound idx i || !storeHas s i) = true
      · rw [dif_pos hcond]
        simp only [collectFuel, hcond, if_true]
        apply ih
        simp only [List.length_cons] at hb
        omega
      · rw [dif_neg hcond]
        simp only [collectFuel]
        rw [if_neg hcond]
        apply ih
        have hst : storeHas s i = true := (collect_cond_false hcond).2
        have h1 : (storeRemove s i).length + 1 ≤ s.length := by
          have hlt : (storeRemove s i).length < s.length := by
            rw [storeHas_iff] at hst
            obtain ⟨e, he, hei⟩ := hst
            rw [storeRemove]
            apply List.length_filter_lt_length_iff_exists.mpr
            exact ⟨e, he, by simp [hei]⟩
          omega
        have h2 : (removeAllFrom idx i).length ≤ idx.length :=
          List.length_filter_le _ _
        have h3 : (outgoingTargets idx i).length ≤ idx.length := by
          rw [outgoingTargets, List.length_map]
          exact List.length_filter_le _ _
        simp only [List.length_append, List.length_cons] at hb ⊢
        have h4 : (storeRemove s i).length * ((removeAllFrom idx i).length + 1)
            ≤ (storeRemove s i).length * (idx.length + 1) :=
          Nat.mul_le_mul_left _ (by omega)
        have h5 : (storeRemove s i).length * (idx.length + 1) + (idx.length + 1)
            ≤ s.length * (idx.length + 1) := by
          calc (storeRemove s i).length * (idx.length + 1) + (idx.length + 1)
              = ((storeRemove s i).length + 1) * (idx.length + 1) := by ring
            _ ≤ s.length * (idx.length + 1) :=
              Nat.mul_le_mul_right _ h1
        omega

theorem collect_eq_sweep (s : Store) (idx : RefIndex) (wl : List Nat) :
    collect s idx wl = collectSweep s idx wl := by
  rw [collect, collectFuel_sufficient (le_refl _), Option.getD_some]

/-! ## Theorems: helper lemmas about the pipeline stages -/

theorem bool_true_of_not_bnot {b : Bool} (h : ¬(!b) = true) : b = true := by
  cases b with
  | false => exact absurd (by simp) h
  | true => rfl

theorem static_consistency_facts {st : PState} {a t i : Nat}
    (h : checkConsistency st (.staticBinding a t) i = none) :
    t ≠ i ∧ storeHas st.store t = true := by
  rw [checkConsistency] at h
  by_cases h1 : (t == i) = true
  · rw [if_pos h1] at h
    exact absurd h (by simp)
  rw [if_neg h1] at h
  by_cases h2 : (!storeHas st.store t) = true
  · rw [if_pos h2] at h
    exact absurd h (by simp)
  rw [if_neg h2] at h
  exact ⟨by simpa using h1, bool_true_of_not_bnot h2⟩

theorem frame_consistency_facts {st : PState} {a lin c t : Nat}
    {hist : List Nat} {i : Nat}
    (h : checkConsistency st (.dynamicFrame a lin c t hist) i = none) :
    t ≠ i ∧ i ∉ hist ∧ storeHas st.store t = true ∧
      (∀ x ∈ hist, storeHas st.store x = true) ∧
      (∀ m, liveCounter st.store lin = some m → m < c) := by
  rw [checkConsistency] at h
  by_cases h1 : (t == i || hist.contains i) = true
  · rw [if_pos h1] at h
    exact absurd h (by simp)
  rw [if_neg h1] at h
  by_cases h2 : (!storeHas st.store t) = true
  · rw [if_pos h2] at h
    exact absurd h (by simp)
  rw [if_neg h2] at h
  by_cases h3 : (!hist.all (fun x => storeHas st.store x)) = true
  · rw [if_pos h3] at h
    exact absurd h (by simp)
  rw [if_neg h3] at h
  have hne : t ≠ i ∧ i ∉ hist := by
    constructor
    · intro he
      exact h1 (by simp [he])
    · intro he
      apply h1
      simp only [Bool.or_eq_true, beq_iff_eq]
      exact Or.inr (List.elem_eq_true_of_mem he)
  refine ⟨hne.1, hne.2, bool_true_of_not_bnot h2, ?_, ?_⟩
  · have := bool_true_of_not_bnot h3
    rw [List.all_eq_true] at this
    intro x hx
    simpa using this x hx
  · intro m hm
    rw [hm] at h
    by_cases h4 : m < c
    · exact h4
    · simp [h4] at h

theorem debind_consistency_facts {st : PState} {a t i : Nat}
    (h : checkConsistency st (.debinding a t) i = none) :
    ∃ b, storeGet st.store t = some b ∧ debindableKind b = true := by
  rw [checkConsistency] at h
  rcases hg : storeGet st.store t with _ | b
  · rw [hg] at h
    exact absurd h (by simp)
  · rw [hg] at h
    refine ⟨b, rfl, ?_⟩
    by_cases hd : debindableKind b = true
    · exact hd
    · simp [hd] at h

theorem submit_state_cases (st : PState) (c : RawCandidate) :
    (submit st c).1 = st ∨
      (submit st c = (commitObj st c.obj (identOf c.obj),
          .accepted (identOf c.obj)) ∧
        c.structOk = true ∧ c.sigOk = true ∧
        storeHas st.store (identOf c.obj) = false ∧
        checkConsistency st c.obj (identOf c.obj) = none ∧
        checkAuthorization st c.obj = none) := by
  rw [submit]
  split
  · left; rfl
  split
  · left; rfl
  split
  · left; rfl
  split
  · left; rfl
  split
  · left; rfl
  · right
    refine ⟨rfl, ?_, ?_, ?_, ?_, ?_⟩ <;> simp_all

theorem submit_accepted_inv {st : PState} {c : RawCandidate} {st1 : PState}
    {i : Nat} (h : submit st c = (st1, .accepted i)) :
    i = identOf c.obj ∧ c.structOk = true ∧ c.sigOk = true ∧
      storeHas st.store (identOf c.obj) = false ∧
      checkConsistency st c.obj (identOf c.obj) = none ∧
      checkAuthorization st c.obj = none ∧
      st1 = commitObj st c.obj (identOf c.obj) := by
  rw [submit] at h
  split at h
  · exact absurd h (by simp)
  · split at h
    · exact absurd h (by simp)
    · split at h
      · exact absurd h (by simp)
      · split at h
        · exact absurd h (by simp)
        · split at h
          · exact absurd h (by simp)
          · injection h with hA hB
            injection hB with hi
            refine ⟨hi.symm, ?_, ?_, ?_, ?_, ?_, hA.symm⟩ <;> simp_all

theorem submit_nonaccepted_state {st : PState} {c : RawCandidate}
    {st1 : PState} {out : Outcome} (h : submit st c = (st1, out))
    (hno : ∀ i, out ≠ .accepted i) : st1 = st := by
  rcases submit_state_cases st c with hcase | hcase
  · rw [h] at hcase
    exact hcase
  · rw [h] at hcase
    injection hcase.1 with hA hB
    exact absurd hB (hno _)

theorem submit_already {st : PState} {c : RawCandidate}
    (h1 : c.structOk = true) (h2 : c.sigOk = true)
    (h3 : storeHas st.store (identOf c.obj) = true) :
    submit st c = (st, .alreadyExists (identOf c.obj)) := by
  rw [submit, if_neg (by simp [h1]), if_neg (by simp [h2]), if_pos h3]

theorem submit_alreadyExists_inv {st : PState} {c : RawCandidate}
    {st1 : PState} {j : Nat} (h : submit st c = (st1, .alreadyExists j)) :
    st1 = st ∧ j = identOf c.obj := by
  rw [submit] at h
  split at h
  · exact absurd h (by simp)
  · split at h
    · exact absurd h (by simp)
    · split at h
      · injection h with hA hB
        injection hB with hj
        exact ⟨hA.symm, hj.symm⟩
      · split at h
        · exact absurd h (by simp)
        · split at h
          · exact absurd h (by simp)
          · exact absurd h (by simp)

/-! ## Theorems: helper lemmas about the atomic commit -/

theorem ne_of_storeHas {s : Store} {i j : Nat}
    (ht : storeHas s j = true) (hf : storeHas s i = false) : j ≠ i := by
  intro he
  rw [he, hf] at ht
  exact Bool.noConfusion ht

theorem lineageEntries_mem {s : Store} {lin : Nat} {e : Nat × GolixObj}
    (h : e ∈ lineageEntries s lin) :
    e ∈ s ∧ frameOfLineage lin e.2 = true := by
  simpa [lineageEntries, List.mem_filter] using h

theorem edgesClosed_cons {s : Store} {idx : RefIndex} (x : Nat × GolixObj)
    (h : edgesClosed s idx) : edgesClosed (x :: s) idx := fun e he =>
  ⟨storeHas_cons_of x (h e he).1, storeHas_cons_of x (h e he).2⟩

theorem commitObj_stores {st : PState} {o : GolixObj} {i : Nat}
    (hcl : edgeClosed st) (hnew : storeHas st.store i = false)
    (hcons : checkConsistency st o i = none) :
    storeHas (commitObj st o i).store i = true := by
  cases o with
  | container a p => exact storeHas_cons_self _
  | staticBinding a t => exact storeHas_cons_self _
  | dynamicFrame a lin c t hist =>
    obtain ⟨hti, hhi, hts, hhs, -⟩ := frame_consistency_facts hcons
    simp only [commitObj]
    apply collect_keeps
    · exact storeHas_cons_self _
    · intro hmem
      rcases List.mem_append.mp hmem with hmem | hmem
      · obtain ⟨e, he, hei⟩ := List.mem_map.mp hmem
        have hes : storeHas st.store i = true :=
          storeHas_iff.mpr ⟨e, (lineageEntries_mem he).1, hei⟩
        rw [hnew] at hes
        exact Bool.noConfusion hes
      · obtain ⟨l, hl, hxl⟩ := List.mem_flatten.mp hmem
        obtain ⟨j, hj, rfl⟩ := List.mem_map.mp hl
        obtain ⟨e, he, he1, he2⟩ := outgoingTargets_mem hxl
        rcases addEdges_mem he with hee | hee
        · have hes := (hcl e hee).1
          rw [he1, hnew] at hes
          exact Bool.noConfusion hes
        · rcases List.mem_cons.mp hee.1 with h5 | h5
          · apply hti
            rw [← h5]
            exact he1
          · apply hhi
            rw [← he1]
            exact h5
    · intro e he
      have he1 := removeAllFromMany_mem he
      rcases addEdges_mem he1 with hee | hee
      · exact ne_of_storeHas (hcl e hee).1 hnew
      · rcases List.mem_cons.mp hee.1 with h5 | h5
        · rw [h5]
          exact hti
        · intro hx
          apply hhi
          rw [← hx]
          exact h5
  | debinding a t =>
    obtain ⟨b, hg, -⟩ := debind_consistency_facts hcons
    have hts : storeHas st.store t = true := storeGet_storeHas hg
    simp only [commitObj]
    apply collect_keeps
    · exact storeHas_cons_self _
    · intro hmem
      rcases List.mem_cons.mp hmem with hmem | hmem
      · rw [← hmem, hnew] at hts
        exact Bool.noConfusion hts
      · obtain ⟨e, he, he1, -⟩ := outgoingTargets_mem hmem
        have hes := (hcl e he).1
        rw [he1, hnew] at hes
        exact Bool.noConfusion hes
    · intro e he
      exact ne_of_storeHas (hcl e (removeAllFrom_mem he).1).1 hnew

theorem commitObj_closed {st : PState} {o : GolixObj} {i : Nat}
    (hcl : edgeClosed st) (hnew : storeHas st.store i = false)
    (hcons : checkConsistency st o i = none) :
    edgeClosed (commitObj st o i) := by
  cases o with
  | container a p => exact edgesClosed_cons _ hcl
  | staticBinding a t =>
    obtain ⟨hti, hts⟩ := static_consistency_facts hcons
    intro e he
    rcases addEdge_mem he with hee | hee
    · obtain ⟨h1, h2⟩ := hcl e hee
      exact ⟨storeHas_cons_of _ h1, storeHas_cons_of _ h2⟩
    · rw [hee]
      exact ⟨storeHas_cons_of _ hts, storeHas_cons_self _⟩
  | dynamicFrame a lin c t hist =>
    obtain ⟨hti, hhi, hts, hhs, -⟩ := frame_consistency_facts hcons
    simp only [commitObj]
    apply collect_edgesClosed
    intro e he
    have he1 := removeAllFromMany_mem he
    rcases addEdges_mem he1 with hee | hee
    · obtain ⟨h1, h2⟩ := hcl e hee
      exact ⟨storeHas_cons_of _ h1, storeHas_cons_of _ h2⟩
    · obtain ⟨hm, h2⟩ := hee
      constructor
      · rcases List.mem_cons.mp hm with h5 | h5
        · rw [h5]
          exact storeHas_cons_of _ hts
        · exact storeHas_cons_of _ (hhs _ h5)
      · rw [h2]
        exact storeHas_cons_self _
  | debinding a t =>
    simp only [commitObj]
    apply collect_edgesClosed
    intro e he
    obtain ⟨h1, h2⟩ := hcl e (removeAllFrom_mem he).1
    exact ⟨storeHas_cons_of _ h1, storeHas_cons_of _ h2⟩

theorem commitObj_keysNodup {st : PState} {o : GolixObj} {i : Nat}
    (hnd : (st.store.map Prod.fst).Nodup)
    (hnew : storeHas st.store i = false) :
    ((commitObj st o i).store.map Prod.fst).Nodup := by
  have hni : i ∉ st.store.map Prod.fst := by
    intro hmem
    obtain ⟨e, he, hei⟩ := List.mem_map.mp hmem
    have hes : storeHas st.store i = true := storeHas_iff.mpr ⟨e, he, hei⟩
    rw [hnew] at hes
    exact Bool.noConfusion hes
  have hcons : (((i, o) :: st.store).map Prod.fst).Nodup := by
    simp only [List.map_cons]
    exact List.nodup_cons.mpr ⟨hni, hnd⟩
  cases o with
  | container a p => exact hcons
  | staticBinding a t => exact hcons
  | dynamicFrame a lin c t hist =>
    simp only [commitObj]
    exact collect_keysNodup hcons
  | debinding a t =>
    simp only [commitObj]
    exact collect_keysNodup hcons

theorem reachable_closed_nodup {st : PState} (h : Reachable st) :
    edgeClosed st ∧ (st.store.map Prod.fst).Nodup := by
  induction h with
  | init =>
    constructor
    · intro e he
      cases he
    · simp [initialState]
  | step st c hst ih =>
    obtain ⟨hcl, hnd⟩ := ih
    rcases submit_state_cases st c with hcase | hcase
    · rw [hcase]
      exact ⟨hcl, hnd⟩
    · obtain ⟨heq, -, -, h3, hc, -⟩ := hcase
      rw [heq]
      exact ⟨commitObj_closed hcl h3 hc, commitObj_keysNodup hnd h3⟩

/-! ## Theorems: helper lemmas about lineage counters -/

theorem le_foldr_max {l : List Nat} {x : Nat} (h : x ∈ l) :
    x ≤ l.foldr max 0 := by
  induction l with
  | nil => cases h
  | cons a l ih =>
    rw [List.foldr_cons]
    rcases List.mem_cons.mp h with h | h
    · rw [h]
      exact le_max_left _ _
    · exact le_trans (ih h) (le_max_right _ _)

theorem counterOf_le_liveCounter {s : Store} {lin : Nat}
    {e : Nat × GolixObj} (he : e ∈ s)
    (hf : frameOfLineage lin e.2 = true) :
    ∃ m, liveCounter s lin = some m ∧ counterOf e.2 ≤ m := by
  have hmem : e ∈ lineageEntries s lin := List.mem_filter.mpr ⟨he, hf⟩
  rw [liveCounter]
  rcases hle : lineageEntries s lin with _ | ⟨x, xs⟩
  · rw [hle] at hmem
    cases hmem
  · rw [hle] at hmem
    refine ⟨_, rfl, ?_⟩
    apply le_foldr_max
    exact List.mem_map.mpr ⟨e, hmem, rfl⟩

theorem commitObj_framesDistinct {st : PState} {o : GolixObj} {i : Nat}
    (hnew : storeHas st.store i = false)
    (hcons : checkConsistency st o i = none)
    (hinv : framesCountersDistinct st.store) :
    framesCountersDistinct (commitObj st o i).store := by
  have hsub : ∀ e, e ∈ (commitObj st o i).store → e ∈ (i, o) :: st.store := by
    cases o with
    | container a p => intro e he; exact he
    | staticBinding a t => intro e he; exact he
    | dynamicFrame a lin c t hist =>
      intro e he
      simp only [commitObj] at he
      exact collect_store_mem he
    | debinding a t =>
      intro e he
      simp only [commitObj] at he
      exact collect_store_mem he
  intro p hp q hq a1 l1 c1 t1 h1 a2 l2 c2 t2 h2 hp2 hq2 hll hne
  have hp1 := hsub p hp
  have hq1 := hsub q hq
  rcases List.mem_cons.mp hp1 with hpn | hpo <;>
    rcases List.mem_cons.mp hq1 with hqn | hqo
  · rw [hpn, hqn] at hne
    exact absurd rfl hne
  · -- p is the fresh entry, q an old stored frame of the same lineage
    rw [hpn] at hp2
    have ho : o = .dynamicFrame a1 l1 c1 t1 h1 := hp2
    subst ho
    subst hll
    obtain ⟨-, -, -, -, hcnt⟩ := frame_consistency_facts hcons
    obtain ⟨m, hm, hle⟩ := @counterOf_le_liveCounter _ l1 _ hqo
      (by rw [hq2]; simp [frameOfLineage])
    rw [hq2] at hle
    have hlt := hcnt m hm
    rw [counterOf] at hle
    omega
  · -- q is the fresh entry, p an old stored frame of the same lineage
    rw [hqn] at hq2
    have ho : o = .dynamicFrame a2 l2 c2 t2 h2 := hq2
    subst ho
    subst hll
    obtain ⟨-, -, -, -, hcnt⟩ := frame_consistency_facts hcons
    obtain ⟨m, hm, hle⟩ := @counterOf_le_liveCounter _ l1 _ hpo
      (by rw [hp2]; simp [frameOfLineage])
    rw [hp2] at hle
    have hlt := hcnt m hm
    rw [counterOf] at hle
    omega
  · exact hinv p hpo q hqo _ _ _ _ _ _ _ _ _ _ hp2 hq2 hll hne

theorem reachable_framesDistinct {st : PState} (h : Reachable st) :
    framesCountersDistinct st.store := by
  induction h with
  | init =>
    intro p hp
    cases hp
  | step st c hst ih =>
    rcases submit_state_cases st c with hcase | hcase
    · rw [hcase]
      exact ih
    · obtain ⟨heq, -, -, h3, hc, -⟩ := hcase
      rw [heq]
      exact commitObj_framesDistinct h3 hc ih

/-! ## Theorems: the claims about the persistence core -/

/-- C6: for every ReferenceIndex state and every edge, adding an edge
that is already present leaves the index unchanged (idempotent), and
removing an absent edge leaves the index unchanged, with no error signal
(the operation is total). -/
theorem edge_ops_idempotent_noop (idx : RefIndex) (t d : Nat) :
    ((t, d) ∈ idx → addEdge idx t d = idx) ∧
    ((t, d) ∉ idx → removeEdge idx t d = idx) := by
  constructor
  · intro h
    rw [addEdge, if_pos h]
  · intro h
    rw [removeEdge]
    apply List.filter_eq_self.mpr
    intro e he
    simp only [ne_eq, decide_eq_true_eq]
    intro heq
    subst heq
    exact h he

/-- Witness for C6 at concrete inputs: re-adding a present edge and
removing an absent edge are both no-ops. -/
theorem edge_ops_idempotent_noop_witness :
    addEdge [(1, 2)] 1 2 = [(1, 2)] ∧
    removeEdge [(3, 4)] 1 2 = [(3, 4)] :=
  ⟨(edge_ops_idempotent_noop [(1, 2)] 1 2).1 (by decide),
   (edge_ops_idempotent_noop [(3, 4)] 1 2).2 (by decide)⟩

/-- C4: the Collector cascade sweep terminates — the fuel-indexed loop
reaches the fixed point within `wl.length + s.length * (idx.length + 1)`
worklist examinations, for every store, index and starting worklist
(hence also for the worklist that a retracted object seeds) — and it
never removes an object with a live inbound edge: when the store and
index have no dangling edges, every identifier that still has an inbound
keep-alive edge after the sweep is still stored (its removal was blocked
by the inbound-emptiness check). -/
theorem collector_terminates_no_live_removal (s : Store) (idx : RefIndex)
    (wl : List Nat) (hcl : edgesClosed s idx) :
    collectFuel (wl.length + s.length * (idx.length + 1)) s idx wl
        = some (collect s idx wl) ∧
    collect s idx wl = collectSweep s idx wl ∧
    (∀ j, hasInbound (collect s idx wl).2 j = true →
      storeHas (collect s idx wl).1 j = true) := by
  refine ⟨?_, collect_eq_sweep s idx wl, ?_⟩
  · rw [collect_eq_sweep]
    exact collectFuel_sufficient le_rfl
  · intro j hj
    obtain ⟨e, he, hej⟩ := hasInbound_iff.mp hj
    rw [← hej]
    exact (collect_edgesClosed hcl e he).1

/-- Witness for C4 at a concrete input: a two-object store where the
bound target is on the worklist; the sweep terminates within the stated
fuel and keeps the target, whose inbound edge is live. -/
theorem collector_terminates_no_live_removal_witness :
    collectFuel 5 [(5, GolixObj.container 1 2), (6, GolixObj.staticBinding 1 5)]
        [(5, 6)] [5]
      = some (collect [(5, GolixObj.container 1 2), (6, GolixObj.staticBinding 1 5)]
          [(5, 6)] [5]) ∧
    storeHas (collect [(5, GolixObj.container 1 2), (6, GolixObj.staticBinding 1 5)]
        [(5, 6)] [5]).1 5 = true := by
  have h := collector_terminates_no_live_removal
    [(5, GolixObj.container 1 2), (6, GolixObj.staticBinding 1 5)]
    [(5, 6)] [5] (by unfold edgesClosed; decide)
  exact ⟨h.1, h.2.2 5 (by decide)⟩

/-- C1, counterexample: the claimed equivalence "stored iff nonzero
inbound-edge count" fails on the code.  In the run that accepts the
Container and then accepts the StaticBinding on it, the binding itself is
present in the Store while its own inbound-edge count is zero (nothing
binds the binding), so presence does not imply a nonzero inbound count. -/
theorem presence_iff_inbound_fails :
    (submit stAfterA candB).2 = .accepted idBindB ∧
    storeHas stAfterAB.store idBindB = true ∧
    hasInbound stAfterAB.refIndex idBindB = false := by
  decide

/-- C1, amended: in every reachable state, an identifier with a nonzero
inbound-edge count is present in the Store — an object with at least one
inbound keep-alive edge is never collected.  (The converse direction of
the claimed equivalence is refuted by `presence_iff_inbound_fails`: a
freshly accepted binding or container is stored with zero inbound
edges.) -/
theorem inbound_edge_implies_stored (st : PState) (hr : Reachable st)
    (j : Nat) (hin : hasInbound st.refIndex j = true) :
    storeHas st.store j = true := by
  obtain ⟨e, he, hej⟩ := hasInbound_iff.mp hin
  rw [← hej]
  exact ((reachable_closed_nodup hr).1 e he).1

/-- Witness for the amended C1 at a concrete reachable state: after the
Container and the StaticBinding are accepted, the Container has an
inbound edge and is stored. -/
theorem inbound_edge_implies_stored_witness :
    storeHas stAfterAB.store idContA = true :=
  inbound_edge_implies_stored stAfterAB
    (Reachable.step stAfterA candB
      (Reachable.step initialState contA Reachable.init))
    idContA (by decide)

/-- C2: submitting byte-identical content twice yields `Accepted` and
then `AlreadyExists` with the same identifier and an unchanged state, and
the Store of a reachable state never holds two entries for one content
identifier (content-addressing makes the identifier a function of the
bytes, so byte-identical content can never occupy two distinct entries);
`submit` is therefore safe to retry verbatim. -/
theorem submit_retry_idempotent (st : PState) (hr : Reachable st)
    (c : RawCandidate) (st1 : PState) (i : Nat)
    (h : submit st c = (st1, .accepted i)) :
    submit st1 c = (st1, .alreadyExists i) ∧
    (st1.store.map Prod.fst).Nodup := by
  obtain ⟨hi, h1, h2, h3, hc, ha, hst1⟩ := submit_accepted_inv h
  obtain ⟨hcl, hnd⟩ := reachable_closed_nodup hr
  have hstores : storeHas st1.store (identOf c.obj) = true := by
    rw [hst1]
    exact commitObj_stores hcl h3 hc
  constructor
  · rw [hi]
    exact submit_already h1 h2 hstores
  · rw [hst1]
    exact commitObj_keysNodup hnd h3

/-- Witness for C2 at a concrete input: the Container accepted from the
empty state is reported `AlreadyExists` on verbatim retry, with the state
unchanged and distinct store keys. -/
theorem submit_retry_idempotent_witness :
    submit stAfterA contA = (stAfterA, .alreadyExists idContA) ∧
    (stAfterA.store.map Prod.fst).Nodup :=
  submit_retry_idempotent initialState Reachable.init contA stAfterA
    idContA (by decide)

/-- C5: per submission the commit is all-or-nothing.  A rejected
submission leaves the state (Store and ReferenceIndex alike) exactly
unchanged, as does an `AlreadyExists` report — a submission abandoned
before the commit likewise has no effect, since only the commit step
touches the state; and `Accepted` is reported only when the object has
actually been placed in the Store, with the keep-alive edge of a
StaticBinding visible in the ReferenceIndex of the very same resulting
state (one atomic step: both become visible together). -/
theorem commit_atomic_all_or_nothing (st : PState) (hr : Reachable st)
    (c : RawCandidate) (st1 : PState) (out : Outcome)
    (h : submit st c = (st1, out)) :
    (∀ k, out = .rejected k → st1 = st) ∧
    (∀ j, out = .alreadyExists j → st1 = st) ∧
    (∀ i, out = .accepted i → storeHas st1.store i = true ∧
      ∀ a t, c.obj = .staticBinding a t → (t, i) ∈ st1.refIndex) := by
  refine ⟨?_, ?_, ?_⟩
  · intro k hk
    subst hk
    exact submit_nonaccepted_state h (fun i => by simp)
  · intro j hj
    subst hj
    exact submit_nonaccepted_state h (fun i => by simp)
  · intro i hi
    subst hi
    obtain ⟨hi2, h1, h2, h3, hc, ha, hst1⟩ := submit_accepted_inv h
    obtain ⟨hcl, -⟩ := reachable_closed_nodup hr
    constructor
    · rw [hst1, hi2]
      exact commitObj_stores hcl h3 hc
    · intro a t hobj
      rw [hst1, hi2, hobj]
      exact addEdge_mem_self

/-- Witness for C5 at a concrete input: accepting the scenario
StaticBinding stores it and makes its keep-alive edge visible in the same
state. -/
theorem commit_atomic_all_or_nothing_witness :
    storeHas stAfterAB.store idBindB = true ∧
    (idContA, idBindB) ∈ stAfterAB.refIndex := by
  have h := (commit_atomic_all_or_nothing stAfterA
    (Reachable.step initialState contA Reachable.init) candB stAfterAB
    (.accepted idBindB) (by decide)).2.2 idBindB rfl
  exact ⟨h.1, h.2 1 idContA rfl⟩

/-- C3: lineage counters are strictly monotonic.  In a reachable state
whose lineage has live counter `m`: a frame of that lineage is accepted
only when its counter strictly exceeds `m` (so consecutive accepted
counters strictly increase in commit order); a frame with counter at most
`m` is reported `AlreadyExists` or rejected, and the state — in
particular the stored live frame — is left exactly unchanged, never
overwritten; moreover no two distinct stored frames of one lineage share
a counter value. -/
theorem lineage_counter_monotonic (st : PState) (hr : Reachable st)
    (c : RawCandidate) (a lin cnt t : Nat) (hist : List Nat)
    (hobj : c.obj = .dynamicFrame a lin cnt t hist) (m : Nat)
    (hm : liveCounter st.store lin = some m) :
    (∀ st1 i, submit st c = (st1, .accepted i) → m < cnt) ∧
    (cnt ≤ m → (submit st c).1 = st ∧
      ((submit st c).2 = .alreadyExists (identOf c.obj) ∨
        ∃ k, (submit st c).2 = .rejected k)) ∧
    framesCountersDistinct st.store := by
  refine ⟨?_, ?_, reachable_framesDistinct hr⟩
  · intro st1 i h
    obtain ⟨-, -, -, -, hc, -, -⟩ := submit_accepted_inv h
    rw [hobj] at hc
    obtain ⟨-, -, -, -, hcnt⟩ := frame_consistency_facts hc
    exact hcnt m hm
  · intro hle
    rcases hsub : submit st c with ⟨st1, out⟩
    cases out with
    | accepted i =>
      exfalso
      obtain ⟨-, -, -, -, hc, -, -⟩ := submit_accepted_inv hsub
      rw [hobj] at hc
      obtain ⟨-, -, -, -, hcnt⟩ := frame_consistency_facts hc
      have := hcnt m hm
      omega
    | alreadyExists j =>
      obtain ⟨hst, hj⟩ := submit_alreadyExists_inv hsub
      refine ⟨hst, Or.inl ?_⟩
      show Outcome.alreadyExists j = .alreadyExists (identOf c.obj)
      rw [hj]
    | rejected k =>
      have hst := submit_nonaccepted_state hsub (fun i => by simp)
      exact ⟨hst, Or.inr ⟨k, rfl⟩⟩

/-- Witness for C3 at a concrete input: after frame counter 5 of lineage
9 is live, resubmitting a counter-5 frame leaves the state unchanged and
is reported `AlreadyExists` or rejected. -/
theorem lineage_counter_monotonic_witness :
    (submit stLineage candF5).1 = stLineage ∧
    ((submit stLineage candF5).2 = .alreadyExists (identOf candF5.obj) ∨
      ∃ k, (submit stLineage candF5).2 = .rejected k) :=
  (lineage_counter_monotonic stLineage
    (Reachable.step stAfterA candF5
      (Reachable.step initialState contA Reachable.init))
    candF5 1 9 5 idContA [] rfl 5 (by decide)).2.1 (by decide)

/-- C7, counterexample: the claim promises `AuthorizationError` for every
submission order relative to the original bind, but when the
wrong-author Debinding is submitted before the StaticBinding exists, the
ConsistencyChecker (which runs before the AuthorizationGuard and requires
the debound target to exist, as in the section 8 scenario of the spec)
rejects it with `ConsistencyError`, not `AuthorizationError`. -/
theorem debind_author_order_counterexample :
    (submit stAfterA debindWrongAuthor).2 = .rejected .consistency ∧
    (submit stAfterA debindWrongAuthor).2 ≠ .rejected .authorization := by
  decide

/-- C7, amended: a Debinding whose author differs from the author of the
binding it retracts is never accepted: whenever the retracted binding is
present in the Store it is rejected with `AuthorizationError`; if
submitted before the bind (target absent) it is rejected with
`ConsistencyError` instead. -/
theorem debind_wrong_author_rejected (st : PState) (a2 t : Nat)
    (c : RawCandidate) (hobj : c.obj = .debinding a2 t)
    (h1 : c.structOk = true) (h2 : c.sigOk = true)
    (hnew : storeHas st.store (identOf c.obj) = false) :
    (∀ b, storeGet st.store t = some b → debindableKind b = true →
      authorOf b ≠ a2 → (submit st c).2 = .rejected .authorization) ∧
    (storeGet st.store t = none → (submit st c).2 = .rejected .consistency) := by
  rw [hobj] at hnew
  constructor
  · intro b hb hdk hne
    have hcons : checkConsistency st (.debinding a2 t)
        (identOf (.debinding a2 t)) = none := by
      simp [checkConsistency, hb, hdk]
    have hauth : checkAuthorization st (.debinding a2 t)
        = some .authorization := by
      simp [checkAuthorization, hb, hne]
    rw [submit, hobj]
    simp [h1, h2, hnew, hcons, hauth]
  · intro hg
    have hcons : checkConsistency st (.debinding a2 t)
        (identOf (.debinding a2 t)) = some .consistency := by
      simp [checkConsistency, hg]
    rw [submit, hobj]
    simp [h1, h2, hnew, hcons]

/-- Witness for the amended C7 at a concrete input: with the scenario
StaticBinding present, the wrong-author Debinding is rejected with
`AuthorizationError`. -/
theorem debind_wrong_author_rejected_witness :
    (submit stAfterAB debindWrongAuthor).2 = .rejected .authorization :=
  (debind_wrong_author_rejected stAfterAB 5 idBindB debindWrongAuthor rfl
    rfl rfl (by decide)).1 bindB (by decide) (by decide) (by decide)

end Hypergolix
